import Mathlib

/-!
# Verification of `k-edit-distance` (`src/lib.rs`)

A shallow embedding of the Rust crate `k_edit_distance`.

* A Rust `&str` is modelled as the list of its Unicode scalar values
  (`List Nat` of code points).
* `levenshtein_distance_chars` fills a `(m+1) × (n+1)` matrix whose cell
  `(i, j)` depends only on the cells `(i-1, j)`, `(i, j-1)`, `(i-1, j-1)`;
  we embed the matrix as the function `levMatrix` defined by that
  recurrence (the fill order of the loops is observationally irrelevant).
* The two external Unicode capabilities the crate calls are modelled
  explicitly:
  - `unicode_segmentation`'s extended grapheme clusters (`graphemes`):
    the UAX #29 break rules restricted to the character classes relevant
    here (Hangul L/V/T/LV/LVT, a representative set of `Grapheme_Extend`
    ranges, everything else breaking) — faithful on Hangul and ASCII
    inputs, which is all the concrete theorems touch;
  - `unicode_normalization`'s per-character NFD (`nfdChar`): the
    algorithmic Hangul syllable decomposition of the Unicode standard,
    identity on code points without a canonical decomposition (which
    covers every code point appearing in the concrete theorems).
* Rust `f32` arithmetic is modelled over `ℚ` by `roundF32`,
  round-to-nearest, ties-to-even at 24 significand bits with unbounded
  exponent: exact for the normal-range values all claims are about
  (overflow and subnormals are out of the claims' reach).
-/

namespace KEdit

/-- Row `i+1` of the dynamic-programming matrix built by
`levenshtein_distance_chars` in `src/lib.rs`, given row `i` as `prev`:
`d[i+1][0] = i+1` and
`d[i+1][j+1] = min (min (d[i][j+1]+1) (d[i+1][j]+1)) (d[i][j]+cost)`
with `cost = 0` iff `s[i] == t[j]` (0-based). -/
def levRow (s t : List Nat) (i : Nat) (prev : Nat → Nat) : Nat → Nat
  | 0 => i + 1
  | j+1 =>
      min (min (prev (j+1) + 1) (levRow s t i prev j + 1))
        (prev j + if s.getD i 0 = t.getD j 0 then 0 else 1)

/-- Cell `d[i][j]` of the matrix: `d[0][j] = j` (base row), every further
row by the recurrence.  Each cell depends only on its left, top and
top-left neighbours, so the loop fill order of the source is
observationally irrelevant. -/
def levMatrix (s t : List Nat) : Nat → Nat → Nat
  | 0 => fun j => j
  | i+1 => levRow s t i (levMatrix s t i)

/-- `levenshtein_distance_chars(s, t)` returns the final matrix cell
`d[m][n]`. -/
def levenshtein_distance_chars (s t : List Nat) : Nat :=
  levMatrix s t s.length t.length

/-- `levenshtein_distance(s, t)` collects the chars of both strings and
calls `levenshtein_distance_chars`; in this model a string already is its
list of scalar values. -/
def levenshtein_distance (s t : List Nat) : Nat :=
  levenshtein_distance_chars s t

/-- Unit-cost Levenshtein distance (Mathlib's), specialised to code
points. -/
abbrev dCost : Levenshtein.Cost Nat Nat Nat := Levenshtein.defaultCost

/-- Grapheme-cluster-break categories of UAX #29, restricted to the
classes that can occur for this crate's inputs. -/
inductive GCat
  | L | V | T | LV | LVT | Ext | Other
  deriving DecidableEq

/-- Category of a code point (Hangul ranges per UAX #29; `Ext` covers the
main `Grapheme_Extend` combining-mark ranges). -/
def gcbOf (c : Nat) : GCat :=
  if 0x1100 ≤ c ∧ c ≤ 0x115F then .L
  else if 0xA960 ≤ c ∧ c ≤ 0xA97C then .L
  else if 0x1160 ≤ c ∧ c ≤ 0x11A7 then .V
  else if 0xD7B0 ≤ c ∧ c ≤ 0xD7C6 then .V
  else if 0x11A8 ≤ c ∧ c ≤ 0x11FF then .T
  else if 0xD7CB ≤ c ∧ c ≤ 0xD7FB then .T
  else if 0xAC00 ≤ c ∧ c ≤ 0xD7A3 then
    (if (c - 0xAC00) % 28 = 0 then .LV else .LVT)
  else if (0x0300 ≤ c ∧ c ≤ 0x036F) ∨ (0x1AB0 ≤ c ∧ c ≤ 0x1AFF) ∨
      (0x1DC0 ≤ c ∧ c ≤ 0x1DFF) ∨ (0x20D0 ≤ c ∧ c ≤ 0x20FF) ∨
      (0xFE20 ≤ c ∧ c ≤ 0xFE2F) ∨ c = 0x200D then .Ext
  else .Other

/-- UAX #29: `joins a b` iff there is no grapheme-cluster break between a
character of category `a` and a following character of category `b`
(rules GB6-GB8 for Hangul, GB9 for extenders; otherwise break). -/
def joins : GCat → GCat → Bool
  | _, .Ext => true
  | .L, .L | .L, .V | .L, .LV | .L, .LVT => true
  | .LV, .V | .LV, .T | .V, .V | .V, .T => true
  | .LVT, .T | .T, .T => true
  | _, _ => false

/-- `s.graphemes(true)`: split into extended grapheme clusters (a
character starts a new cluster exactly when there is a break between it
and its successor's category). -/
def graphemes : List Nat → List (List Nat)
  | [] => []
  | a :: rest =>
    match rest with
    | [] => [[a]]
    | b :: r =>
      match graphemes (b :: r) with
      | [] => [[a]]
      | g :: gs =>
          if joins (gcbOf a) (gcbOf b) then (a :: g) :: gs else [a] :: g :: gs

/-- Per-character NFD (`part.nfd()` where `part` is one `char`): the
Unicode algorithmic decomposition of a precomposed Hangul syllable
(U+AC00..U+D7A3) into its conjoining jamo; every other code point the
claims touch has no canonical decomposition and maps to itself. -/
def nfdChar (c : Nat) : List Nat :=
  if 0xAC00 ≤ c ∧ c ≤ 0xD7A3 then
    let s := c - 0xAC00
    let l := 0x1100 + s / 588
    let v := 0x1161 + s % 588 / 28
    let t := s % 28
    if t = 0 then [l, v] else [l, v, 0x11A7 + t]
  else [c]

/-- The `match char` substitution table inside `normalize`. The literal
characters in the source are the compatibility jamo U+3131 (ㄱ), U+314B
(ㅋ), U+3132 (ㄲ), U+3137 (ㄷ), U+3138 (ㄸ), U+314C (ㅌ), U+3142 (ㅂ),
U+3143 (ㅃ), U+314D (ㅍ), U+3145 (ㅅ), U+3146 (ㅆ), U+3148 (ㅈ), U+3149
(ㅉ), U+314A (ㅊ); everything else passes through. -/
def kTable (c : Nat) : Nat :=
  if c = 0x3131 ∨ c = 0x314B ∨ c = 0x3132 then 0x3131
  else if c = 0x3137 ∨ c = 0x3138 ∨ c = 0x314C then 0x3137
  else if c = 0x3142 ∨ c = 0x3143 ∨ c = 0x314D then 0x3142
  else if c = 0x3145 ∨ c = 0x3146 then 0x3145
  else if c = 0x3148 ∨ c = 0x3149 ∨ c = 0x314A then 0x3148
  else c

/-- `normalize(s)`: for each grapheme of `s`, for each of its chars, for
each code point of that char's NFD: skip spaces, push the table image. -/
def normalize (s : List Nat) : List Nat :=
  (graphemes s).flatMap fun g =>
    g.flatMap fun part =>
      (nfdChar part).filterMap fun ch =>
        if ch = 0x20 then none else some (kTable ch)

/-- Round-half-even of a rational to an integer. -/
def rhe (x : ℚ) : ℤ :=
  if x - ⌊x⌋ < 1/2 then ⌊x⌋
  else if (1 : ℚ)/2 < x - ⌊x⌋ then ⌊x⌋ + 1
  else if ⌊x⌋ % 2 = 0 then ⌊x⌋ else ⌊x⌋ + 1

/-- IEEE-754 binary32 rounding (round to nearest, ties to even, 24-bit
significand, unbounded exponent — exact on the normal range the claims
use). -/
def roundF32 (q : ℚ) : ℚ :=
  if 0 < q then
    (rhe (q * 2 ^ (23 - Int.log 2 q)) : ℚ) * 2 ^ (Int.log 2 q - 23)
  else if q < 0 then
    -((rhe (-q * 2 ^ (23 - Int.log 2 (-q))) : ℚ) * 2 ^ (Int.log 2 (-q) - 23))
  else 0

/-- Rust `n as f32` on a `usize`. -/
def f32ofNat (n : Nat) : ℚ := roundF32 n

/-- Rust `f32` division (the reachable divisions of the crate have a
nonzero divisor, proved below, so the NaN/∞ cases never arise). -/
def f32div (a b : ℚ) : ℚ := roundF32 (a / b)

/-- `k_edit_distance(s, t)` from `src/lib.rs`. -/
def k_edit_distance (s t : List Nat) : ℚ :=
  if s = [] ∧ t = [] then 0
  else
    let sSyllables := graphemes s
    let tSyllables := graphemes t
    let editDistance :=
      (List.range (max sSyllables.length tSyllables.length)).foldl
        (fun acc i =>
          acc + levenshtein_distance_chars (normalize (sSyllables.getD i []))
            (normalize (tSyllables.getD i []))) 0
    let mx := max (3 * sSyllables.length) (3 * tSyllables.length)
    f32div (f32ofNat editDistance) (f32ofNat mx)

/-- The scorer exactly as §4.4 of the spec words it: the sum over positions
`i < max |S| |T|` of the edit distance (Mathlib's unit-cost `levenshtein`)
between the normalized forms, missing syllables read as the empty string,
divided by `max (3|S|) (3|T|)` in 32-bit floating point. -/
def kEditDistanceSpec (s t : List Nat) : ℚ :=
  let S := graphemes s
  let T := graphemes t
  let total := ∑ i ∈ Finset.range (max S.length T.length),
      levenshtein dCost (normalize (S.getD i []))
        (normalize (T.getD i []))
  f32div (f32ofNat total) (f32ofNat (max (3 * S.length) (3 * T.length)))

/-! ### The rounding model -/

lemma floor_le_rhe (x : ℚ) : ⌊x⌋ ≤ rhe x := by
  unfold rhe; split_ifs <;> omega

lemma rhe_le_floor_add_one (x : ℚ) : rhe x ≤ ⌊x⌋ + 1 := by
  unfold rhe; split_ifs <;> omega

lemma rhe_intCast (n : ℤ) : rhe (n : ℚ) = n := by
  unfold rhe
  rw [Int.floor_intCast]
  norm_num

lemma intCast_le_rhe {x : ℚ} {n : ℤ} (h : (n : ℚ) ≤ x) : n ≤ rhe x :=
  le_trans (Int.le_floor.mpr h) (floor_le_rhe x)

lemma rhe_le_of_lt {x : ℚ} {n : ℤ} (h : x < (n : ℚ)) : rhe x ≤ n := by
  have := Int.floor_lt.mpr h
  have := rhe_le_floor_add_one x
  omega

lemma rhe_mono {a b : ℚ} (h : a ≤ b) : rhe a ≤ rhe b := by
  rcases lt_or_eq_of_le (Int.floor_le_floor h) with hf | hf
  · have h1 := rhe_le_floor_add_one a
    have h2 := floor_le_rhe b
    omega
  · unfold rhe
    rw [hf]
    split_ifs <;> first | omega | linarith

lemma rhe_eq_up {x : ℚ} {f : ℤ} (h1 : (1 : ℚ)/2 < x - f) (h2 : x < f + 1) :
    rhe x = f + 1 := by
  have hfl : ⌊x⌋ = f := Int.floor_eq_iff.mpr ⟨by linarith, by exact_mod_cast h2⟩
  unfold rhe
  rw [hfl]
  split_ifs <;> first | rfl | linarith

lemma rhe_eq_down {x : ℚ} {f : ℤ} (h1 : (f : ℚ) ≤ x) (h2 : x - f < 1/2) :
    rhe x = f := by
  have hfl : ⌊x⌋ = f := Int.floor_eq_iff.mpr ⟨h1, by linarith⟩
  unfold rhe
  rw [hfl]
  split_ifs <;> first | rfl | linarith

lemma Intlog2_eq {q : ℚ} {e : ℤ} (h1 : (2:ℚ)^e ≤ q) (h2 : q < 2^(e+1)) :
    Int.log 2 q = e := by
  have hq : 0 < q := lt_of_lt_of_le (by positivity) h1
  have ha : ((2:ℕ):ℚ)^(Int.log 2 q) ≤ q := Int.zpow_log_le_self (by norm_num) hq
  have hb : q < ((2:ℕ):ℚ)^(Int.log 2 q + 1) := Int.lt_zpow_succ_log_self (by norm_num) q
  norm_num at ha hb
  have h3 := (zpow_lt_zpow_iff_right₀ (by norm_num : (1:ℚ) < 2)).mp (lt_of_le_of_lt ha h2)
  have h4 := (zpow_lt_zpow_iff_right₀ (by norm_num : (1:ℚ) < 2)).mp (lt_of_le_of_lt h1 hb)
  omega

lemma roundF32_of_pos {q : ℚ} (hq : 0 < q) :
    roundF32 q = (rhe (q * 2 ^ (23 - Int.log 2 q)) : ℚ) * 2 ^ (Int.log 2 q - 23) := by
  unfold roundF32
  rw [if_pos hq]

lemma roundF32_eq_of {q : ℚ} {e m : ℤ} (h1 : (2:ℚ)^e ≤ q) (h2 : q < 2^(e+1))
    (h3 : rhe (q * 2^(23 - e)) = m) : roundF32 q = (m : ℚ) * 2^(e - 23) := by
  have hq : 0 < q := lt_of_lt_of_le (by positivity) h1
  rw [roundF32_of_pos hq, Intlog2_eq h1 h2, h3]

lemma roundF32_zero : roundF32 0 = 0 := by
  unfold roundF32
  norm_num

lemma roundF32_nonneg {q : ℚ} (h : 0 ≤ q) : 0 ≤ roundF32 q := by
  rcases eq_or_lt_of_le h with h0 | h0
  · rw [← h0, roundF32_zero]
  · rw [roundF32_of_pos h0]
    have hm : (0:ℤ) ≤ rhe (q * 2 ^ (23 - Int.log 2 q)) := intCast_le_rhe (by positivity)
    exact mul_nonneg (by exact_mod_cast hm) (by positivity)

lemma pow_le_roundF32 {q : ℚ} (hq : 0 < q) : (2:ℚ)^(Int.log 2 q) ≤ roundF32 q := by
  rw [roundF32_of_pos hq]
  have h1 : ((2:ℕ):ℚ)^(Int.log 2 q) ≤ q := Int.zpow_log_le_self (by norm_num) hq
  norm_num at h1
  have hm : ((2:ℤ)^(23:ℕ)) ≤ rhe (q * 2 ^ (23 - Int.log 2 q)) := by
    apply intCast_le_rhe
    have key : ((2:ℚ)^(23:ℤ)) ≤ q * 2 ^ (23 - Int.log 2 q) := by
      calc (2:ℚ)^(23:ℤ) = 2^(Int.log 2 q) * 2^(23 - Int.log 2 q) := by
            rw [← zpow_add₀ (two_ne_zero : (2:ℚ) ≠ 0)]
            norm_num
        _ ≤ q * 2 ^ (23 - Int.log 2 q) :=
            mul_le_mul_of_nonneg_right h1 (by positivity)
    calc (((2:ℤ)^(23:ℕ) : ℤ) : ℚ) = (2:ℚ)^(23:ℤ) := by norm_num
      _ ≤ _ := key
  calc (2:ℚ)^(Int.log 2 q)
      = (2:ℚ)^(23:ℤ) * 2^(Int.log 2 q - 23) := by
        rw [← zpow_add₀ (two_ne_zero : (2:ℚ) ≠ 0)]
        ring_nf
    _ ≤ (rhe (q * 2 ^ (23 - Int.log 2 q)) : ℚ) * 2 ^ (Int.log 2 q - 23) := by
        apply mul_le_mul_of_nonneg_right _ (by positivity)
        calc (2:ℚ)^(23:ℤ) = (((2:ℤ)^(23:ℕ) : ℤ) : ℚ) := by norm_num
          _ ≤ _ := by exact_mod_cast hm

lemma roundF32_le_pow_succ {q : ℚ} (hq : 0 < q) :
    roundF32 q ≤ (2:ℚ)^(Int.log 2 q + 1) := by
  rw [roundF32_of_pos hq]
  have h2 : q < ((2:ℕ):ℚ)^(Int.log 2 q + 1) := Int.lt_zpow_succ_log_self (by norm_num) q
  norm_num at h2
  have hm : rhe (q * 2 ^ (23 - Int.log 2 q)) ≤ ((2:ℤ)^(24:ℕ)) := by
    apply rhe_le_of_lt
    have key : q * 2 ^ (23 - Int.log 2 q) < (2:ℚ)^(24:ℤ) := by
      calc q * 2 ^ (23 - Int.log 2 q)
          < (2:ℚ)^(Int.log 2 q + 1) * 2 ^ (23 - Int.log 2 q) :=
            mul_lt_mul_of_pos_right h2 (by positivity)
        _ = (2:ℚ)^(24:ℤ) := by
            rw [← zpow_add₀ (two_ne_zero : (2:ℚ) ≠ 0)]
            ring_nf
    calc q * 2 ^ (23 - Int.log 2 q) < (2:ℚ)^(24:ℤ) := key
      _ = (((2:ℤ)^(24:ℕ) : ℤ) : ℚ) := by norm_num
  calc (rhe (q * 2 ^ (23 - Int.log 2 q)) : ℚ) * 2 ^ (Int.log 2 q - 23)
      ≤ (2:ℚ)^(24:ℤ) * 2 ^ (Int.log 2 q - 23) := by
        apply mul_le_mul_of_nonneg_right _ (by positivity)
        calc (rhe (q * 2 ^ (23 - Int.log 2 q)) : ℚ)
            ≤ (((2:ℤ)^(24:ℕ) : ℤ) : ℚ) := by exact_mod_cast hm
          _ = (2:ℚ)^(24:ℤ) := by norm_num
    _ = (2:ℚ)^(Int.log 2 q + 1) := by
        rw [← zpow_add₀ (two_ne_zero : (2:ℚ) ≠ 0)]
        ring_nf

lemma roundF32_pos {q : ℚ} (hq : 0 < q) : 0 < roundF32 q :=
  lt_of_lt_of_le (by positivity) (pow_le_roundF32 hq)

lemma roundF32_mono {a b : ℚ} (ha : 0 ≤ a) (hab : a ≤ b) :
    roundF32 a ≤ roundF32 b := by
  rcases eq_or_lt_of_le ha with h0 | h0
  · rw [← h0, roundF32_zero]
    exact roundF32_nonneg (le_trans ha hab)
  · have hb : 0 < b := lt_of_lt_of_le h0 hab
    have hle : Int.log 2 a ≤ Int.log 2 b := Int.log_mono_right h0 hab
    rcases lt_or_eq_of_le hle with hlt | heq
    · calc roundF32 a ≤ (2:ℚ)^(Int.log 2 a + 1) := roundF32_le_pow_succ h0
        _ ≤ (2:ℚ)^(Int.log 2 b) :=
            zpow_le_zpow_right₀ (by norm_num : (1:ℚ) ≤ 2) (by omega)
        _ ≤ roundF32 b := pow_le_roundF32 hb
    · rw [roundF32_of_pos h0, roundF32_of_pos hb, heq]
      have hr : rhe (a * 2 ^ (23 - Int.log 2 b)) ≤ rhe (b * 2 ^ (23 - Int.log 2 b)) :=
        rhe_mono (mul_le_mul_of_nonneg_right hab (by positivity))
      exact mul_le_mul_of_nonneg_right (by exact_mod_cast hr) (by positivity)

lemma roundF32_one : roundF32 (1:ℚ) = 1 := by
  have h3 : rhe ((1:ℚ) * 2^((23:ℤ) - 0)) = (2:ℤ)^(23:ℕ) := by
    calc rhe ((1:ℚ) * 2^((23:ℤ) - 0)) = rhe ((((2:ℤ)^(23:ℕ) : ℤ) : ℚ)) := by
          norm_num
      _ = (2:ℤ)^(23:ℕ) := rhe_intCast _
  calc roundF32 (1:ℚ) = (((2:ℤ)^(23:ℕ) : ℤ) : ℚ) * 2^((0:ℤ) - 23) :=
        roundF32_eq_of (e := 0) (by norm_num) (by norm_num) h3
    _ = 1 := by norm_num

lemma roundF32_le_one {q : ℚ} (h0 : 0 ≤ q) (h1 : q ≤ 1) : roundF32 q ≤ 1 := by
  calc roundF32 q ≤ roundF32 1 := roundF32_mono h0 h1
    _ = 1 := roundF32_one

lemma f32ofNat_eq {n : ℕ} (h : n < 2^24) : f32ofNat n = n := by
  rcases Nat.eq_zero_or_pos n with h0 | h0
  · subst h0
    unfold f32ofNat
    rw [Nat.cast_zero, roundF32_zero]
  · have hne : n ≠ 0 := Nat.pos_iff_ne_zero.mp h0
    have hlog : Nat.log 2 n < 24 := Nat.log_lt_of_lt_pow hne h
    have hb1 : (2:ℚ)^((Nat.log 2 n : ℤ)) ≤ (n:ℚ) := by
      rw [zpow_natCast]
      exact_mod_cast Nat.pow_log_le_self 2 hne
    have hb2 : (n:ℚ) < 2^((Nat.log 2 n : ℤ) + 1) := by
      have : ((Nat.log 2 n : ℤ) + 1) = ((Nat.log 2 n + 1 : ℕ) : ℤ) := by push_cast; ring
      rw [this, zpow_natCast]
      exact_mod_cast Nat.lt_pow_succ_log_self (by norm_num) n
    have hk : (23:ℤ) - (Nat.log 2 n : ℤ) = ((23 - Nat.log 2 n : ℕ) : ℤ) := by
      omega
    have h3 : rhe ((n:ℚ) * 2^((23:ℤ) - (Nat.log 2 n : ℤ)))
        = ((n * 2^(23 - Nat.log 2 n) : ℕ) : ℤ) := by
      rw [hk, zpow_natCast]
      calc rhe ((n:ℚ) * 2^((23 - Nat.log 2 n : ℕ)))
          = rhe ((((n * 2^(23 - Nat.log 2 n) : ℕ) : ℤ) : ℚ)) := by push_cast; ring_nf
        _ = ((n * 2^(23 - Nat.log 2 n) : ℕ) : ℤ) := rhe_intCast _
    unfold f32ofNat
    rw [roundF32_eq_of hb1 hb2 h3]
    push_cast
    rw [mul_assoc, ← zpow_natCast (2:ℚ) (23 - Nat.log 2 n), ← zpow_add₀ (two_ne_zero : (2:ℚ) ≠ 0)]
    rw [show ((23 - Nat.log 2 n : ℕ) : ℤ) + ((Nat.log 2 n : ℤ) - 23) = 0 by omega]
    norm_num

/-! ### The matrix recurrence computes the Levenshtein distance -/

lemma lev_nil_left (v : List Nat) : levenshtein dCost [] v = v.length := by
  induction v with
  | nil => simp
  | cons y v ih =>
    rw [levenshtein_nil_cons, ih]
    simp [Nat.add_comm]

lemma lev_nil_right (u : List Nat) : levenshtein dCost u [] = u.length := by
  induction u with
  | nil => simp
  | cons x u ih =>
    rw [levenshtein_cons_nil, ih]
    simp [Nat.add_comm]

/-- Rearrangement of nested minima of sums used in the inductive step of
`lev_snoc_snoc`. -/
lemma min_exchange (A1 A2 A3 A4 A5 A6 A7 A8 A9 p q : ℕ) :
    (1 + ((A1+1) ⊓ (A2+1) ⊓ (A3+q))) ⊓
      ((1 + ((A4+1) ⊓ (A5+1) ⊓ (A6+q))) ⊓ (p + ((A7+1) ⊓ (A8+1) ⊓ (A9+q)))) =
    ((1+A1) ⊓ ((1+A4) ⊓ (p+A7)) + 1) ⊓
      ((1+A2) ⊓ ((1+A5) ⊓ (p+A8)) + 1) ⊓
      ((1+A3) ⊓ ((1+A6) ⊓ (p+A9)) + q) := by
  simp only [← min_add_add_left, ← min_add_add_right]
  ring_nf
  ac_rfl

/-- The key step: the Wagner-Fischer recurrence on final elements, proved
for the head-recursive `levenshtein`. -/
lemma lev_snoc_snoc (a b : Nat) (u v : List Nat) :
    levenshtein dCost (u ++ [a]) (v ++ [b]) =
      min (min (levenshtein dCost u (v ++ [b]) + 1)
          (levenshtein dCost (u ++ [a]) v + 1))
        (levenshtein dCost u v + if a = b then 0 else 1) := by
  induction u generalizing v with
  | nil =>
    induction v with
    | nil =>
      simp only [List.nil_append, levenshtein_cons_cons, levenshtein_nil_nil,
        levenshtein_nil_cons, levenshtein_cons_nil, Levenshtein.defaultCost_delete,
        Levenshtein.defaultCost_insert, Levenshtein.defaultCost_substitute]
      split_ifs <;> omega
    | cons y v ihv =>
      simp only [List.nil_append] at ihv ⊢
      simp only [List.cons_append, levenshtein_cons_cons,
        Levenshtein.defaultCost_delete, Levenshtein.defaultCost_insert,
        Levenshtein.defaultCost_substitute, lev_nil_left, ihv, List.length_cons,
        List.length_append, List.length_cons, List.length_nil]
      split_ifs <;> omega
  | cons x u ihu =>
    induction v with
    | nil =>
      have h1 := ihu []
      simp only [List.nil_append, lev_nil_right, lev_nil_left, List.length_append,
        List.length_cons, List.length_nil] at h1
      simp only [List.nil_append, List.cons_append, levenshtein_cons_cons,
        Levenshtein.defaultCost_delete, Levenshtein.defaultCost_insert,
        Levenshtein.defaultCost_substitute, lev_nil_right, lev_nil_left,
        List.length_append, List.length_cons, List.length_nil, h1]
      split_ifs <;> omega
    | cons y v ihv =>
      have hA := ihu (y :: v)
      simp only [List.cons_append] at hA
      have hC := ihu v
      simp only [List.cons_append] at ihv ⊢
      simp only [levenshtein_cons_cons, Levenshtein.defaultCost_delete,
        Levenshtein.defaultCost_insert, Levenshtein.defaultCost_substitute,
        hA, hC, ihv]
      exact min_exchange _ _ _ _ _ _ _ _ _ _ _
lemma score_eval {a b : ℕ} {e m : ℤ} (ha : a < 2^24) (hb : b < 2^24)
    (h1 : (2:ℚ)^e ≤ (a:ℚ)/b) (h2 : (a:ℚ)/b < 2^(e+1))
    (h3 : rhe ((a:ℚ)/b * 2^(23 - e)) = m) :
    f32div (f32ofNat a) (f32ofNat b) = (m : ℚ) * 2^(e - 23) := by
  unfold f32div
  rw [f32ofNat_eq ha, f32ofNat_eq hb]
  exact roundF32_eq_of h1 h2 h3

lemma take_succ_getD (l : List Nat) (i : Nat) (h : i < l.length) :
    l.take (i+1) = l.take i ++ [l.getD i 0] := by
  rw [List.take_succ, List.getElem?_eq_getElem h, List.getD_eq_getElem l 0 h]
  rfl

/-- Every matrix cell holds the Levenshtein distance of the prefixes it
indexes. -/
lemma levMatrix_eq (s t : List Nat) :
    ∀ i j, i ≤ s.length → j ≤ t.length →
      levMatrix s t i j = levenshtein dCost (s.take i) (t.take j) := by
  intro i
  induction i with
  | zero =>
    intro j _ hj
    simp only [levMatrix, List.take_zero, lev_nil_left, List.length_take]
    omega
  | succ i ihi =>
    intro j
    induction j with
    | zero =>
      intro hi _
      have h0 : levMatrix s t (i+1) 0 = i + 1 := rfl
      rw [h0, List.take_zero, lev_nil_right, List.length_take]
      omega
    | succ j ihj =>
      intro hi hj
      have hstep : levMatrix s t (i+1) (j+1) =
          min (min (levMatrix s t i (j+1) + 1) (levMatrix s t (i+1) j + 1))
            (levMatrix s t i j + if s.getD i 0 = t.getD j 0 then 0 else 1) := rfl
      rw [hstep, ihi (j+1) (by omega) hj, ihj (by omega) (by omega),
        ihi j (by omega) (by omega),
        take_succ_getD s i (by omega), take_succ_getD t j (by omega),
        lev_snoc_snoc]

/-- `levenshtein_distance_chars` computes the Levenshtein distance. -/
lemma levenshtein_distance_chars_eq (s t : List Nat) :
    levenshtein_distance_chars s t = levenshtein dCost s t := by
  have h := levMatrix_eq s t s.length t.length le_rfl le_rfl
  simpa [levenshtein_distance_chars, List.take_length] using h

lemma lev_self (u : List Nat) : levenshtein dCost u u = 0 := by
  induction u with
  | nil => simp
  | cons x u ih => simp [levenshtein_cons_cons, ih]

/-- The matrix is symmetric under swapping the two strings. -/
lemma levMatrix_comm (s t : List Nat) :
    ∀ i j, levMatrix s t i j = levMatrix t s j i := by
  intro i
  induction i with
  | zero =>
    intro j
    cases j with
    | zero => rfl
    | succ j => rfl
  | succ i ihi =>
    intro j
    induction j with
    | zero => rfl
    | succ j ihj =>
      have h1 : levMatrix s t (i+1) (j+1) =
          min (min (levMatrix s t i (j+1) + 1) (levMatrix s t (i+1) j + 1))
            (levMatrix s t i j + if s.getD i 0 = t.getD j 0 then 0 else 1) := rfl
      have h2 : levMatrix t s (j+1) (i+1) =
          min (min (levMatrix t s j (i+1) + 1) (levMatrix t s (j+1) i + 1))
            (levMatrix t s j i + if t.getD j 0 = s.getD i 0 then 0 else 1) := rfl
      have hc : (if s.getD i 0 = t.getD j 0 then (0:ℕ) else 1)
          = (if t.getD j 0 = s.getD i 0 then 0 else 1) := by
        by_cases h : s.getD i 0 = t.getD j 0
        · rw [if_pos h, if_pos h.symm]
        · rw [if_neg h, if_neg fun hh => h hh.symm]
      rw [h1, h2, ihi (j+1), ihj, ihi j, hc,
        min_comm (levMatrix t s (j+1) i + 1) (levMatrix t s j (i+1) + 1)]

/-- Length bounds on the Levenshtein distance. -/
lemma lev_bounds : ∀ u v : List Nat,
    u.length - v.length ≤ levenshtein dCost u v ∧
    v.length - u.length ≤ levenshtein dCost u v ∧
    levenshtein dCost u v ≤ max u.length v.length := by
  intro u
  induction u with
  | nil =>
    intro v
    simp [lev_nil_left]
  | cons x u ihu =>
    intro v
    induction v with
    | nil =>
      simp only [lev_nil_right, List.length_cons, List.length_nil]
      omega
    | cons y v ihv =>
      obtain ⟨h1, h2, h3⟩ := ihu (y :: v)
      obtain ⟨h4, h5, h6⟩ := ihu v
      obtain ⟨h7, h8, h9⟩ := ihv
      simp only [levenshtein_cons_cons, Levenshtein.defaultCost_delete,
        Levenshtein.defaultCost_insert, Levenshtein.defaultCost_substitute,
        List.length_cons] at *
      split_ifs <;> omega

lemma foldl_add_eq_sum (f : ℕ → ℕ) : ∀ n a : ℕ,
    (List.range n).foldl (fun acc i => acc + f i) a = a + ∑ i ∈ Finset.range n, f i := by
  intro n
  induction n with
  | zero =>
    intro a
    simp
  | succ n ih =>
    intro a
    rw [List.range_succ, List.foldl_append, ih, Finset.sum_range_succ]
    simp [Nat.add_assoc]

lemma graphemes_ne_nil (a : Nat) (s : List Nat) : graphemes (a :: s) ≠ [] := by
  induction s generalizing a with
  | nil => simp [graphemes]
  | cons b r ih =>
    rw [graphemes]
    rcases hg : graphemes (b :: r) with _ | ⟨g, gs⟩
    · exact absurd hg (ih b)
    · dsimp only
      split_ifs <;> simp

lemma f32ofNat_zero : f32ofNat 0 = 0 := by
  unfold f32ofNat
  rw [Nat.cast_zero, roundF32_zero]

lemma f32div_zero (b : ℚ) : f32div 0 b = 0 := by
  unfold f32div
  rw [zero_div, roundF32_zero]

lemma denom_pos {s t : List Nat} (h : s ≠ [] ∨ t ≠ []) :
    0 < max (3 * (graphemes s).length) (3 * (graphemes t).length) := by
  have key : ∀ u : List Nat, u ≠ [] → 1 ≤ (graphemes u).length := by
    intro u hu
    rcases u with _ | ⟨a, u0⟩
    · exact absurd rfl hu
    · have hne := graphemes_ne_nil a u0
      have : (graphemes (a :: u0)).length ≠ 0 :=
        fun hh => hne (List.length_eq_zero.mp hh)
      omega
  rcases h with h | h
  · have := key s h
    omega
  · have := key t h
    omega

/-! ### Claims -/

/-- C3: `levenshtein_distance` computes the classic unit-cost edit
distance between the scalar-value sequences — the value of the
Wagner-Fischer recurrence, here independently given by Mathlib's
`levenshtein` with `Levenshtein.defaultCost` — and on an empty input it
returns the length of the other string. -/
theorem kedit_c3_levenshtein_correct :
    ∀ s t : List Nat,
      levenshtein_distance s t = levenshtein Levenshtein.defaultCost s t ∧
      levenshtein_distance s [] = s.length ∧
      levenshtein_distance [] t = t.length := by
  intro s t
  refine ⟨levenshtein_distance_chars_eq s t, ?_, ?_⟩
  · rw [show levenshtein_distance s [] = levenshtein_distance_chars s [] from rfl,
      levenshtein_distance_chars_eq, lev_nil_right]
  · rw [show levenshtein_distance [] t = levenshtein_distance_chars [] t from rfl,
      levenshtein_distance_chars_eq, lev_nil_left]

/-- C8: `abs (|s| - |t|) ≤ levenshtein_distance s t ≤ max |s| |t|`,
lengths counted in Unicode scalar values. -/
theorem kedit_c8_levenshtein_bounds :
    ∀ s t : List Nat,
      ((s.length : ℤ) - (t.length : ℤ)).natAbs ≤ levenshtein_distance s t ∧
      levenshtein_distance s t ≤ max s.length t.length := by
  intro s t
  obtain ⟨h1, h2, h3⟩ := lev_bounds s t
  have he : levenshtein_distance s t = levenshtein dCost s t :=
    levenshtein_distance_chars_eq s t
  rw [he]
  constructor
  · omega
  · exact h3

/-- C6: `k_edit_distance` is symmetric in its two arguments. -/
theorem kedit_c6_symmetric :
    ∀ s t : List Nat, k_edit_distance s t = k_edit_distance t s := by
  intro s t
  by_cases hst : s = [] ∧ t = []
  · simp only [k_edit_distance, if_pos hst, if_pos (And.intro hst.2 hst.1)]
  · simp only [k_edit_distance, if_neg hst,
      if_neg fun (h : t = [] ∧ s = []) => hst ⟨h.2, h.1⟩]
    have hlen : max (graphemes t).length (graphemes s).length
        = max (graphemes s).length (graphemes t).length := max_comm _ _
    have htot : (List.range (max (graphemes s).length (graphemes t).length)).foldl
        (fun acc i => acc + levenshtein_distance_chars
          (normalize ((graphemes s).getD i [])) (normalize ((graphemes t).getD i []))) 0
        = (List.range (max (graphemes t).length (graphemes s).length)).foldl
        (fun acc i => acc + levenshtein_distance_chars
          (normalize ((graphemes t).getD i [])) (normalize ((graphemes s).getD i []))) 0 := by
      rw [hlen, foldl_add_eq_sum, foldl_add_eq_sum]
      congr 1
      apply Finset.sum_congr rfl
      intro i _
      unfold levenshtein_distance_chars
      rw [levMatrix_comm]
    rw [htot, max_comm (3 * (graphemes s).length) (3 * (graphemes t).length)]

/-- C7: the score of a string against itself is exactly `0.0`. -/
theorem kedit_c7_self_zero : ∀ s : List Nat, k_edit_distance s s = 0 := by
  intro s
  by_cases hs : s = []
  · subst hs
    rfl
  · simp only [k_edit_distance, if_neg fun (h : s = [] ∧ s = []) => hs h.1]
    rw [foldl_add_eq_sum]
    have hz : ∀ i ∈ Finset.range (max (graphemes s).length (graphemes s).length),
        levenshtein_distance_chars (normalize ((graphemes s).getD i []))
          (normalize ((graphemes s).getD i [])) = 0 := by
      intro i _
      rw [levenshtein_distance_chars_eq, lev_self]
    rw [Finset.sum_congr rfl hz, Finset.sum_const_zero, Nat.add_zero, f32ofNat_zero,
      f32div_zero]

/-- C9: the `""`/`""` short-circuit returns exactly `0.0`, and on every
other input the denominator `max (3|S|) (3|T|)` is nonzero, so the final
division never divides by zero (totality of the two operations is
inherent to the model: both are Lean functions on all inputs). -/
theorem kedit_c9_total :
    k_edit_distance [] [] = 0 ∧
    ∀ s t : List Nat, (s ≠ [] ∨ t ≠ []) →
      0 < max (3 * (graphemes s).length) (3 * (graphemes t).length) := by
  exact ⟨rfl, fun s t h => denom_pos h⟩

/-- C10: a score of `0.0` does not imply equality: `"하늘"` and
`"하늘 "` (trailing space, which `normalize` drops) are distinct strings
scoring `0.0`. -/
theorem kedit_c10_zero_without_equality :
    [0xD558, 0xB298] ≠ [0xD558, 0xB298, 0x20] ∧
    k_edit_distance [0xD558, 0xB298] [0xD558, 0xB298, 0x20] = 0 := by
  constructor
  · decide
  · have e : k_edit_distance [0xD558, 0xB298] [0xD558, 0xB298, 0x20]
        = f32div (f32ofNat 0) (f32ofNat 9) := rfl
    rw [e, f32ofNat_zero, f32div_zero]

/-- C5: the seven reference scores of the spec and the crate's test
`test_kang_seung_shik_distance`, at single-precision granularity: each
decimal literal denotes the `f32` nearest to it (`roundF32` of the
decimal rational). -/
theorem kedit_c5_reference_values :
    k_edit_distance [0xAD6D, 0xC5B4] [0xC219, 0xC5B4] = roundF32 (16666667/100000000) ∧
    k_edit_distance [0xB098, 0xBB34, 0xAC00, 0xC9C0] [0xB098, 0xBB47, 0xAC00, 0xC9C0]
      = roundF32 (83333336/1000000000) ∧
    k_edit_distance [0xC2E0, 0xBB38] [0xC2DD, 0xBB3C] = roundF32 (33333334/100000000) ∧
    k_edit_distance [0xAC80, 0xC740, 0xC0C9] [0xBD84, 0xD64D, 0xC0C9]
      = roundF32 (6666667/10000000) ∧
    k_edit_distance [0xC2E0, 0xD638, 0xB4F1] [0xD0DD, 0xC2DC] = roundF32 (8888889/10000000) ∧
    k_edit_distance [0xC9C4, 0xACF5, 0xCCAD, 0xC18C, 0xAE30] [0xC1A5]
      = roundF32 (8666667/10000000) ∧
    k_edit_distance [0xD558, 0xB298] [0xD0DD, 0xC2DC] = 1 := by
  have h1 : k_edit_distance [0xAD6D, 0xC5B4] [0xC219, 0xC5B4] = roundF32 (16666667/100000000) := by
    have estep : k_edit_distance [0xAD6D, 0xC5B4] [0xC219, 0xC5B4] = f32div (f32ofNat 1) (f32ofNat 6) := rfl
    rw [estep, score_eval (e := -3) (by norm_num) (by norm_num) (by norm_num) (by norm_num)
        (rhe_eq_up (f := 11184810) (by norm_num) (by norm_num)),
      roundF32_eq_of (e := -3) (by norm_num) (by norm_num)
        (rhe_eq_up (f := 11184810) (by norm_num) (by norm_num))]
  have h2 : k_edit_distance [0xB098, 0xBB34, 0xAC00, 0xC9C0] [0xB098, 0xBB47, 0xAC00, 0xC9C0] = roundF32 (83333336/1000000000) := by
    have estep : k_edit_distance [0xB098, 0xBB34, 0xAC00, 0xC9C0] [0xB098, 0xBB47, 0xAC00, 0xC9C0] = f32div (f32ofNat 1) (f32ofNat 12) := rfl
    rw [estep, score_eval (e := -4) (by norm_num) (by norm_num) (by norm_num) (by norm_num)
        (rhe_eq_up (f := 11184810) (by norm_num) (by norm_num)),
      roundF32_eq_of (e := -4) (by norm_num) (by norm_num)
        (rhe_eq_down (f := 11184811) (by norm_num) (by norm_num))]
    norm_num
  have h3 : k_edit_distance [0xC2E0, 0xBB38] [0xC2DD, 0xBB3C] = roundF32 (33333334/100000000) := by
    have estep : k_edit_distance [0xC2E0, 0xBB38] [0xC2DD, 0xBB3C] = f32div (f32ofNat 2) (f32ofNat 6) := rfl
    rw [estep, score_eval (e := -2) (by norm_num) (by norm_num) (by norm_num) (by norm_num)
        (rhe_eq_up (f := 11184810) (by norm_num) (by norm_num)),
      roundF32_eq_of (e := -2) (by norm_num) (by norm_num)
        (rhe_eq_up (f := 11184810) (by norm_num) (by norm_num))]
  have h4 : k_edit_distance [0xAC80, 0xC740, 0xC0C9] [0xBD84, 0xD64D, 0xC0C9] = roundF32 (6666667/10000000) := by
    have estep : k_edit_distance [0xAC80, 0xC740, 0xC0C9] [0xBD84, 0xD64D, 0xC0C9] = f32div (f32ofNat 6) (f32ofNat 9) := rfl
    rw [estep, score_eval (e := -1) (by norm_num) (by norm_num) (by norm_num) (by norm_num)
        (rhe_eq_up (f := 11184810) (by norm_num) (by norm_num)),
      roundF32_eq_of (e := -1) (by norm_num) (by norm_num)
        (rhe_eq_down (f := 11184811) (by norm_num) (by norm_num))]
    norm_num
  have h5 : k_edit_distance [0xC2E0, 0xD638, 0xB4F1] [0xD0DD, 0xC2DC] = roundF32 (8888889/10000000) := by
    have estep : k_edit_distance [0xC2E0, 0xD638, 0xB4F1] [0xD0DD, 0xC2DC] = f32div (f32ofNat 8) (f32ofNat 9) := rfl
    rw [estep, score_eval (e := -1) (by norm_num) (by norm_num) (by norm_num) (by norm_num)
        (rhe_eq_up (f := 14913080) (by norm_num) (by norm_num)),
      roundF32_eq_of (e := -1) (by norm_num) (by norm_num)
        (rhe_eq_down (f := 14913081) (by norm_num) (by norm_num))]
    norm_num
  have h6 : k_edit_distance [0xC9C4, 0xACF5, 0xCCAD, 0xC18C, 0xAE30] [0xC1A5] = roundF32 (8666667/10000000) := by
    have estep : k_edit_distance [0xC9C4, 0xACF5, 0xCCAD, 0xC18C, 0xAE30] [0xC1A5] = f32div (f32ofNat 13) (f32ofNat 15) := rfl
    rw [estep, score_eval (e := -1) (by norm_num) (by norm_num) (by norm_num) (by norm_num)
        (rhe_eq_up (f := 14540253) (by norm_num) (by norm_num)),
      roundF32_eq_of (e := -1) (by norm_num) (by norm_num)
        (rhe_eq_down (f := 14540254) (by norm_num) (by norm_num))]
    norm_num
  have h7 : k_edit_distance [0xD558, 0xB298] [0xD0DD, 0xC2DC] = 1 := by
    have estep : k_edit_distance [0xD558, 0xB298] [0xD0DD, 0xC2DC]
        = f32div (f32ofNat 6) (f32ofNat 6) := rfl
    rw [estep, score_eval (e := 0) (by norm_num) (by norm_num) (by norm_num) (by norm_num)
        (rhe_eq_down (f := 8388608) (by norm_num) (by norm_num))]
    norm_num
  exact ⟨h1, h2, h3, h4, h5, h6, h7⟩

/-- C1 (code bug): the substitution table of `normalize` matches the
compatibility jamo U+3131 etc., but NFD of a precomposed syllable yields
the conjoining jamo U+1100-U+11C2, so the consonant-class collapse never
fires on a syllable block: `가` (U+AC00) and `카` (U+CE74) differ only by
the same-class leading consonant ㄱ/ㅋ yet normalize differently, and
their score is the `f32` value of 1/3, not 0. -/
theorem kedit_c1_substitution_dead :
    normalize [0xAC00] = [0x1100, 0x1161] ∧
    normalize [0xCE74] = [0x110F, 0x1161] ∧
    k_edit_distance [0xAC00] [0xCE74] = (11184811 : ℚ) * 2^((-25 : ℤ)) ∧
    k_edit_distance [0xAC00] [0xCE74] ≠ 0 := by
  have hv : k_edit_distance [0xAC00] [0xCE74] = (11184811 : ℚ) * 2^((-25 : ℤ)) := by
    have estep : k_edit_distance [0xAC00] [0xCE74]
        = f32div (f32ofNat 1) (f32ofNat 3) := rfl
    rw [estep, score_eval (e := -2) (by norm_num) (by norm_num) (by norm_num) (by norm_num)
        (rhe_eq_up (f := 11184810) (by norm_num) (by norm_num))]
    norm_num
  refine ⟨rfl, rfl, hv, ?_⟩
  rw [hv]
  norm_num

/-- C4 (counterexample): the score is not always within `[0, 1]`: the
single grapheme cluster `가ᅡᅡ` (conjoining jamo L V V V, one extended
grapheme cluster by UAX #29 rules GB6/GB7) normalizes to 4 code points,
so against `"b"` the total is 4 while the denominator is 3, and the
score is the `f32` value of 4/3 > 1. -/
theorem kedit_c4_counterexample :
    1 < k_edit_distance [0x1100, 0x1161, 0x1161, 0x1161] [0x62] := by
  have estep : k_edit_distance [0x1100, 0x1161, 0x1161, 0x1161] [0x62]
      = f32div (f32ofNat 4) (f32ofNat 3) := rfl
  rw [estep, score_eval (e := 0) (by norm_num) (by norm_num) (by norm_num) (by norm_num)
      (rhe_eq_up (f := 11184810) (by norm_num) (by norm_num))]
  norm_num

/-- C4 (amended): the score is always nonnegative, and it is at most
`1.0` whenever every grapheme of either input normalizes to at most 3
code points (true of all standard Korean text, where a syllable block
decomposes into at most 3 jamo). -/
theorem kedit_c4_amended :
    ∀ s t : List Nat,
      0 ≤ k_edit_distance s t ∧
      ((∀ g ∈ graphemes s, (normalize g).length ≤ 3) →
       (∀ g ∈ graphemes t, (normalize g).length ≤ 3) →
       k_edit_distance s t ≤ 1) := by
  intro s t
  by_cases hst : s = [] ∧ t = []
  · constructor
    · simp [k_edit_distance, hst]
    · intro _ _
      simp [k_edit_distance, hst]
  · have hor : s ≠ [] ∨ t ≠ [] := by
      rcases not_and_or.mp hst with h | h
      · exact Or.inl h
      · exact Or.inr h
    have hden := denom_pos hor
    constructor
    · simp only [k_edit_distance, if_neg hst]
      unfold f32div f32ofNat
      apply roundF32_nonneg
      exact div_nonneg (roundF32_nonneg (Nat.cast_nonneg _))
        (roundF32_nonneg (Nat.cast_nonneg _))
    · intro hgs hgt
      simp only [k_edit_distance, if_neg hst]
      have htot : (List.range (max (graphemes s).length (graphemes t).length)).foldl
          (fun acc i => acc + levenshtein_distance_chars
            (normalize ((graphemes s).getD i [])) (normalize ((graphemes t).getD i []))) 0
          ≤ max (3 * (graphemes s).length) (3 * (graphemes t).length) := by
        rw [foldl_add_eq_sum, Nat.zero_add]
        have hterm : ∀ i ∈ Finset.range (max (graphemes s).length (graphemes t).length),
            levenshtein_distance_chars (normalize ((graphemes s).getD i []))
              (normalize ((graphemes t).getD i [])) ≤ 3 := by
          intro i _
          have hs3 : (normalize ((graphemes s).getD i [])).length ≤ 3 := by
            by_cases hi : i < (graphemes s).length
            · have hmem : (graphemes s).getD i [] ∈ graphemes s := by
                rw [List.getD_eq_getElem _ _ hi]
                exact List.getElem_mem hi
              exact hgs _ hmem
            · rw [List.getD_eq_default _ _ (by omega)]
              decide
          have ht3 : (normalize ((graphemes t).getD i [])).length ≤ 3 := by
            by_cases hi : i < (graphemes t).length
            · have hmem : (graphemes t).getD i [] ∈ graphemes t := by
                rw [List.getD_eq_getElem _ _ hi]
                exact List.getElem_mem hi
              exact hgt _ hmem
            · rw [List.getD_eq_default _ _ (by omega)]
              decide
          rw [levenshtein_distance_chars_eq]
          obtain ⟨_, _, h3⟩ := lev_bounds (normalize ((graphemes s).getD i []))
            (normalize ((graphemes t).getD i []))
          omega
        have hsum := Finset.sum_le_card_nsmul
          (Finset.range (max (graphemes s).length (graphemes t).length))
          (fun i => levenshtein_distance_chars (normalize ((graphemes s).getD i []))
            (normalize ((graphemes t).getD i []))) 3 hterm
        simp only [Finset.card_range, smul_eq_mul] at hsum
        omega
      unfold f32div f32ofNat
      apply roundF32_le_one
      · exact div_nonneg (roundF32_nonneg (Nat.cast_nonneg _))
          (roundF32_nonneg (Nat.cast_nonneg _))
      · have hB : (0:ℚ) < roundF32
            ((max (3 * (graphemes s).length) (3 * (graphemes t).length) : ℕ) : ℚ) := by
          apply roundF32_pos
          exact_mod_cast hden
        apply (div_le_one hB).mpr
        exact roundF32_mono (Nat.cast_nonneg _) (Nat.cast_le.mpr htot)

/-- C4 (amended) witness at `"국어"` vs `"숙어"`. -/
theorem kedit_c4_amended_witness :
    0 ≤ k_edit_distance [0xAD6D, 0xC5B4] [0xC219, 0xC5B4] ∧
    k_edit_distance [0xAD6D, 0xC5B4] [0xC219, 0xC5B4] ≤ 1 :=
  ⟨(kedit_c4_amended [0xAD6D, 0xC5B4] [0xC219, 0xC5B4]).1,
    (kedit_c4_amended [0xAD6D, 0xC5B4] [0xC219, 0xC5B4]).2 (by decide) (by decide)⟩

/-- C2: away from the empty/empty short-circuit, `k_edit_distance` equals
the positionwise formula of the spec: the sum over `i < max |S| |T|` of
the Levenshtein distance between the normalized forms (missing syllables
as the empty string), divided by `max (3|S|) (3|T|)` in `f32`. -/
theorem kedit_c2_spec_formula :
    ∀ s t : List Nat, (s ≠ [] ∨ t ≠ []) → k_edit_distance s t = kEditDistanceSpec s t := by
  intro s t h
  have hne : ¬(s = [] ∧ t = []) := by
    rcases h with h | h
    · exact fun hh => h hh.1
    · exact fun hh => h hh.2
  simp only [k_edit_distance, kEditDistanceSpec, if_neg hne]
  rw [foldl_add_eq_sum, Nat.zero_add]
  have hterms : ∀ i ∈ Finset.range (max (graphemes s).length (graphemes t).length),
      levenshtein_distance_chars (normalize ((graphemes s).getD i []))
        (normalize ((graphemes t).getD i []))
      = levenshtein dCost (normalize ((graphemes s).getD i []))
        (normalize ((graphemes t).getD i [])) := by
    intro i _
    exact levenshtein_distance_chars_eq _ _
  rw [Finset.sum_congr rfl hterms]

/-- C2 witness at `"a"` vs `""`. -/
theorem kedit_c2_witness :
    k_edit_distance [0x61] [] = kEditDistanceSpec [0x61] [] :=
  kedit_c2_spec_formula [0x61] [] (Or.inl (by decide))

/-- C9 witness at `"a"` vs `""`. -/
theorem kedit_c9_witness :
    0 < max (3 * (graphemes [0x61]).length) (3 * (graphemes ([] : List Nat)).length) :=
  kedit_c9_total.2 [0x61] [] (Or.inl (by decide))


end KEdit
